import Mathlib

/-!
Verification development for the `trusttree.py` tool of the
fapolicyd-extras repository.

The program summarises a flat list of filesystem paths into a counted
directory trie aggregated by extension buckets, prunes low-count subtrees,
optionally collapses single-child chains for rendering, renders the result
as text or JSON, and derives glob-style filter suggestions.

This file shallowly embeds the core functions of `src/trust/trusttree.py`
into Lean and proves the specification claims about them.  Python strings
are modelled as Lean `String`s (sequences of characters); the Python string
operations used by the source (`startswith`, `endswith`, `in`, `split`,
`join`, slicing) are modelled by the `py*` helpers below, which operate on
the underlying character lists.  Python dictionaries are modelled as
association lists in insertion order (`List (String × Node)`), which is
faithful to CPython's ordered dictionaries; insertion of an existing key
overwrites the value in place, insertion of a new key appends.
-/

/-- Model of Python `s.startswith(pre)`: prefix test on the character list. -/
def pyStartsWith (s pre : String) : Bool :=
  pre.toList.isPrefixOf s.toList

/-- Model of Python `s.endswith(suf)`: suffix test on the character list. -/
def pyEndsWith (s suf : String) : Bool :=
  suf.toList.isSuffixOf s.toList

/-- Model of Python `c in s` for a single-character needle `c`. -/
def pyContains (s : String) (c : Char) : Bool :=
  s.toList.contains c

/-- Model of Python `s[1:]`: drop the first character. -/
def pySlice1 (s : String) : String :=
  String.mk (s.toList.drop 1)

/-- Model of Python `s.split(sep)` for a one-character separator, at the
character-list level: split at every occurrence of `c`, keeping empty
pieces (so the result is always non-empty). -/
def splitChar (c : Char) : List Char → List (List Char)
  | [] => [[]]
  | x :: xs =>
    let r := splitChar c xs
    if x = c then [] :: r
    else
      match r with
      | h :: t => (x :: h) :: t
      | [] => [[x]]

/-- Model of Python `s.split(sep)` for a one-character separator. -/
def pySplit (s : String) (c : Char) : List String :=
  (splitChar c s.toList).map String.mk

/-- Character-list core of Python `sep.join(pieces)`. -/
def joinStrs (sep : List Char) : List (List Char) → List Char
  | [] => []
  | [l] => l
  | l :: ls => l ++ sep ++ joinStrs sep ls

/-- Model of Python `sep.join(pieces)`. -/
def pyJoinStr (sep : String) (l : List String) : String :=
  String.mk (joinStrs sep.toList (l.map String.toList))

/-- Code-point lexicographic comparison of character lists, the order
Python uses to compare strings. -/
def charsLE : List Char → List Char → Bool
  | [], _ => true
  | _ :: _, [] => false
  | c :: s, d :: t =>
    if c.toNat < d.toNat then true
    else if d.toNat < c.toNat then false
    else charsLE s t

/-- Model of Python string comparison `a <= b`. -/
def pyStrLE (a b : String) : Bool :=
  charsLE a.toList b.toList

/-- The three extension-bucket policies of `--ext-mode`. -/
inductive ExtMode where
  | last
  | full
  | star
deriving DecidableEq, Repr

/-- The three filter-suggestion styles of `--emit-filter-mode`. -/
inductive FilterMode where
  | ext
  | dir
  | all
deriving DecidableEq, Repr

/-- Embedding of `get_ext_leaf(basename, mode)` from `trusttree.py`:
compute the synthetic extension-bucket segment of a basename. -/
def getExtLeaf (basename : String) (mode : ExtMode) : String :=
  if mode = ExtMode.star then "*"
  else if pyStartsWith basename "." then "*"
  else if ¬ pyContains basename '.' then "*"
  else if mode = ExtMode.last then
    let ext := (pySplit basename '.').getLastD ""
    if ext = "" then "*" else "*." ++ ext
  else
    let ext := String.mk ((basename.toList.dropWhile (fun ch => ch ≠ '.')).drop 1)
    if ext = "" then "*" else "*." ++ ext

/-- Embedding of the `initial_slashes` computation of CPython
`posixpath.normpath`: 0 for relative paths, 2 for exactly two leading
slashes, 1 otherwise. -/
def initialSlashes (path : String) : Nat :=
  if pyStartsWith path "/" then
    if pyStartsWith path "//" && !(pyStartsWith path "///") then 2 else 1
  else 0

/-- One step of the component-resolution loop of CPython
`posixpath.normpath`: skip empty and `.` components, resolve `..`. -/
def normCompsFold (k : Nat) (acc : List String) (comp : String) : List String :=
  if comp = "" ∨ comp = "." then acc
  else if comp ≠ ".." ∨ (k = 0 ∧ acc = []) ∨ (acc ≠ [] ∧ acc.getLast? = some "..") then
    acc ++ [comp]
  else if acc ≠ [] then acc.dropLast
  else acc

/-- The resolved component list of CPython `posixpath.normpath`. -/
def normComps (path : String) : List String :=
  (pySplit path '/').foldl (normCompsFold (initialSlashes path)) []

/-- Embedding of `os.path.normpath` (CPython `posixpath.normpath`), which
`path_to_parts` applies first: collapse `.`/`..`/redundant separators,
preserving a double leading slash. -/
def normpath (path : String) : String :=
  if path = "" then "."
  else
    let k := initialSlashes path
    let p1 := String.mk
      ((if k = 2 then ['/', '/'] else if k = 1 then ['/'] else []) ++
        joinStrs ['/'] ((normComps path).map String.toList))
    if p1 = "" then "." else p1

/-- Embedding of `path_to_parts(path, mode)` from `trusttree.py`: normalize
a raw path and turn it into the segment sequence inserted into the trie,
the last literal component replaced by its extension bucket. -/
def pathToParts (path : String) (mode : ExtMode) : List String :=
  let norm := normpath path
  if norm = "/" then ["/", "*"]
  else
    let parts :=
      if pyStartsWith norm "/" then
        "/" :: ((pySplit (pySlice1 norm) '/').filter (fun p => p ≠ ""))
      else
        let parts0 := (pySplit norm '/').filter (fun p => p ≠ "")
        if parts0 ≠ [] ∧ parts0.head? ≠ some "/" then "/" :: parts0 else parts0
    if parts ≠ [] then
      parts.dropLast ++ [getExtLeaf (parts.getLastD "") mode]
    else ["/", "*"]

/-- Embedding of the `Node` class of `trusttree.py`: a counted trie node.
Children are an insertion-ordered association list, modelling the Python
dictionary `self.children`. -/
inductive Node where
  | mk (count : Nat) (children : List (String × Node))

/-- The `count` field of a node. -/
def Node.count : Node → Nat
  | .mk c _ => c

/-- The `children` field of a node. -/
def Node.children : Node → List (String × Node)
  | .mk _ cs => cs

mutual
/-- Boolean equality of trees (counts and ordered children). -/
def nodeBeq : Node → Node → Bool
  | .mk c cs, .mk c' cs' => c == c' && nodeBeqList cs cs'
/-- Boolean equality of child lists. -/
def nodeBeqList : List (String × Node) → List (String × Node) → Bool
  | [], [] => true
  | (k, v) :: t, (k', v') :: t' => k == k' && nodeBeq v v' && nodeBeqList t t'
  | _, _ => false
end

mutual
theorem nodeBeq_iff : ∀ a b : Node, nodeBeq a b = true ↔ a = b
  | .mk c cs, .mk c' cs' => by
    rw [nodeBeq]
    rw [Bool.and_eq_true, beq_iff_eq, nodeBeqList_iff cs cs']
    constructor
    · rintro ⟨h1, h2⟩; rw [h1, h2]
    · intro h; cases h; exact ⟨rfl, rfl⟩
theorem nodeBeqList_iff : ∀ l l' : List (String × Node), nodeBeqList l l' = true ↔ l = l'
  | [], [] => by simp [nodeBeqList]
  | [], (k', v') :: t' => by simp [nodeBeqList]
  | (k, v) :: t, [] => by simp [nodeBeqList]
  | (k, v) :: t, (k', v') :: t' => by
    rw [nodeBeqList]
    rw [Bool.and_eq_true, Bool.and_eq_true, beq_iff_eq, nodeBeq_iff v v', nodeBeqList_iff t t']
    constructor
    · rintro ⟨⟨h1, h2⟩, h3⟩; rw [h1, h2, h3]
    · intro h; cases h; exact ⟨⟨rfl, rfl⟩, rfl⟩
end

instance : DecidableEq Node := fun a b =>
  decidable_of_iff (nodeBeq a b = true) (nodeBeq_iff a b)

mutual
/-- Structural size of a node: itself plus its descendants, used as the
termination measure of the tree traversals below. -/
def nodeSize : Node → Nat
  | .mk _ cs => 1 + listSize cs
/-- Structural size of a child list. -/
def listSize : List (String × Node) → Nat
  | [] => 0
  | (_, v) :: t => 1 + nodeSize v + listSize t
end

/-- Update the child dictionary at key `p` with `f`, inserting
`f(new Node())` if the key is absent; dictionary semantics: an existing key
keeps its position, a new key is appended at the end. -/
def updateChild (p : String) (f : Node → Node) : List (String × Node) → List (String × Node)
  | [] => [(p, f (Node.mk 0 []))]
  | (k, v) :: t => if k = p then (k, f v) :: t else (k, v) :: updateChild p f t

/-- Embedding of `ensure_path(root, parts)` from `trusttree.py`: increment
the node's count, then descend along `parts`, creating missing children and
incrementing every visited node's count (a freshly created child starts at
count 0 and is immediately incremented by the recursive call). -/
def ensurePath : Node → List String → Node
  | .mk c cs, [] => .mk (c + 1) cs
  | .mk c cs, p :: rest => .mk (c + 1) (updateChild p (fun child => ensurePath child rest) cs)

/-- Dictionary lookup in a child list (first match). -/
def findChild (p : String) : List (String × Node) → Option Node
  | [] => none
  | (k, v) :: t => if k = p then some v else findChild p t

/-- Follow a route of child names from a node. -/
def lookupRoute : Node → List String → Option Node
  | n, [] => some n
  | n, p :: rest =>
    match findChild p n.children with
    | some child => lookupRoute child rest
    | none => none

/-- The count stored at a route, 0 if the route does not exist. -/
def countAt (n : Node) (route : List String) : Nat :=
  match lookupRoute n route with
  | some m => m.count
  | none => 0

/-- The configuration surface the core consumes.  The compiled include and
exclude regexes are abstracted as optional Boolean match functions (the
result of `re.search` being truthy). -/
structure Config where
  pathPref : String
  includeRe : Option (String → Bool)
  excludeRe : Option (String → Bool)
  extMode : ExtMode
  minCount : Nat
  maxDepth : Nat
  top : Nat
  useJson : Bool
  compact : Bool
  emitFilter : Bool
  filterMode : FilterMode

/-- Embedding of `want_path(path, prefix, include_re, exclude_re)` from
`trusttree.py`: the inclusion filter applied to the raw path string. -/
def wantPath (cfg : Config) (path : String) : Bool :=
  if cfg.pathPref ≠ "" ∧ ¬ pyStartsWith path cfg.pathPref then false
  else if (cfg.includeRe.elim false (fun f => !(f path))) then false
  else if (cfg.excludeRe.elim false (fun f => f path)) then false
  else true

/-- Embedding of `build_tree(args)` from `trusttree.py`, abstracted over the
already-read sequence of path strings: start from an empty root and insert
the segment sequence of every path that passes the inclusion filter. -/
def buildTree (cfg : Config) (paths : List String) : Node :=
  paths.foldl
    (fun acc path =>
      if wantPath cfg path then ensurePath acc (pathToParts path cfg.extMode) else acc)
    (Node.mk 0 [])

mutual
/-- Embedding of `prune_tree(node, min_count)` from `trusttree.py`:
post-order removal of every subtree whose root count is below the
threshold; `none` models the Python `None` result. -/
def pruneTree (n : Node) (minCount : Nat) : Option Node :=
  match n with
  | .mk c cs => if c < minCount then none else some (.mk c (pruneChildren cs minCount))
/-- The child-pruning loop of `prune_tree`: keep the surviving children. -/
def pruneChildren (cs : List (String × Node)) (minCount : Nat) : List (String × Node) :=
  match cs with
  | [] => []
  | (k, v) :: t =>
    match pruneTree v minCount with
    | some w => (k, w) :: pruneChildren t minCount
    | none => pruneChildren t minCount
end

/-- Embedding of `is_leaf_name(name)` from `trusttree.py`: the leaf-shape
test on a stored name. -/
def isLeafName (name : String) : Bool :=
  name = "*" || pyStartsWith name "*."

/-- The sort key comparison of `sorted_children`: Python sorts the child
items ascending by the tuple `(is_leaf_name(k), -count, k)`, so `a` sorts
no later than `b` iff leaf-shaped names come after non-leaf ones, higher
counts first within a group, and ascending name on count ties. -/
def keyLE (a b : String × Node) : Bool :=
  if isLeafName a.1 ≠ isLeafName b.1 then isLeafName b.1
  else if a.2.count ≠ b.2.count then b.2.count < a.2.count
  else pyStrLE a.1 b.1

/-- Stable insertion of `x` into `l`: `x` is placed before the first
element `y` with `le x y`, hence after all earlier-listed elements that
compare equal to it. -/
def insertBy (le : α → α → Bool) (x : α) : List α → List α
  | [] => [x]
  | y :: t => if le x y then x :: y :: t else y :: insertBy le x t

/-- Stable sort by a total preorder, modelling Python's stable `sorted`:
elements comparing equal keep their original relative order, which is
exactly the behaviour of this insertion sort for a total `le`. -/
def sortBy (le : α → α → Bool) : List α → List α
  | [] => []
  | x :: t => insertBy le x (sortBy le t)

/-- Embedding of `sorted_children(node)` from `trusttree.py`. -/
def sortedChildren (n : Node) : List (String × Node) :=
  sortBy keyLE n.children

/-- The breadth limit applied at each level: Python's
`if top and len(items) > top: items = items[:top]`. -/
def truncTop (top : Nat) (l : List α) : List α :=
  if top ≠ 0 ∧ l.length > top then l.take top else l

theorem insertBy_perm (le : α → α → Bool) (x : α) (l : List α) :
    (insertBy le x l).Perm (x :: l) := by
  induction l with
  | nil => simp [insertBy]
  | cons y t ih =>
    simp only [insertBy]
    split
    · exact List.Perm.refl _
    · exact (ih.cons y).trans (List.Perm.swap x y t)

theorem sortBy_perm (le : α → α → Bool) (l : List α) : (sortBy le l).Perm l := by
  induction l with
  | nil => simp [sortBy]
  | cons x t ih => exact (insertBy_perm le x (sortBy le t)).trans (ih.cons x)

theorem listSize_eq_sum (l : List (String × Node)) :
    listSize l = (l.map (fun p => 1 + nodeSize p.2)).sum := by
  induction l with
  | nil => rfl
  | cons p t ih => cases p; simp [listSize, ih]

theorem listSize_perm {l l' : List (String × Node)} (h : l.Perm l') :
    listSize l = listSize l' := by
  rw [listSize_eq_sum, listSize_eq_sum]
  exact (h.map _).sum_eq

theorem listSize_take (k : Nat) (l : List (String × Node)) :
    listSize (l.take k) ≤ listSize l := by
  induction l generalizing k with
  | nil => simp
  | cons p t ih =>
    cases k with
    | zero => simp [listSize]
    | succ k =>
      cases p
      simp only [List.take, listSize]
      have := ih k
      omega

theorem listSize_truncTop (top : Nat) (l : List (String × Node)) :
    listSize (truncTop top l) ≤ listSize l := by
  unfold truncTop
  split
  · exact listSize_take top l
  · exact Nat.le_refl _

theorem listSize_sortedChildren (n : Node) :
    listSize (sortedChildren n) = listSize n.children :=
  listSize_perm (sortBy_perm keyLE n.children)

theorem listSize_children_lt (n : Node) : listSize n.children < nodeSize n := by
  cases n with
  | mk c cs => simp [Node.children, nodeSize]

/-- Build a Python dictionary entry: an existing key keeps its position and
gets the new value, a new key is appended. -/
def dictInsert (k : String) (v : Node) : List (String × Node) → List (String × Node)
  | [] => [(k, v)]
  | (k', v') :: t => if k' = k then (k, v) :: t else (k', v') :: dictInsert k v t

mutual
/-- Embedding of `collapse_chains(name, node)` from `trusttree.py`: follow
the single-child chain from `node`, accumulating the compound name, then
rebuild the stop node's children dictionary from the recursively collapsed
children. -/
def collapseChains (name : String) (n : Node) : String × Node :=
  match n with
  | .mk _ [(k, child)] => collapseChains (if name = "" then k else name ++ "/" ++ k) child
  | .mk c cs => (name, .mk c (collapseListAux [] cs))
/-- The rebuild loop of `collapse_chains`: collapse each child and insert
the results into a fresh dictionary in iteration order. -/
def collapseListAux (acc : List (String × Node)) : List (String × Node) → List (String × Node)
  | [] => acc
  | (k, v) :: t =>
    let r := collapseChains k v
    collapseListAux (dictInsert r.1 r.2 acc) t
end

/-- The in-place effect of `collapse_chains(name, node)` on the node object
it was invoked on, as seen from the canonical tree that still references
that object: nodes along a single-child chain keep their own children
mapping (only the deeper stop node is reassigned), while a node with zero
or several children has its children dictionary rebuilt with the collapsed
(possibly compound) names.  `print_tree` only shallow-copies the root's
children dictionary, so this mutation is visible from the canonical tree. -/
def collapseEffect (n : Node) : Node :=
  match n with
  | .mk c [(k, child)] => .mk c [(k, collapseEffect child)]
  | .mk c cs => .mk c (collapseListAux [] cs)

/-- The state of the canonical pruned tree after
`print_tree(root, ..., compact=True)` returns: the root object itself is
untouched (the renderer worked on a shallow copy of its children
dictionary), but every child object it references has been mutated by
`collapse_chains`. -/
def printTreeEffect (root : Node) : Node :=
  Node.mk root.count (root.children.map (fun p => (p.1, collapseEffect p.2)))

/-- The JSON object shape produced by the JSON renderer:
`{name, count, children: [...]}`. -/
inductive JTree where
  | mk (name : String) (count : Nat) (children : List JTree)

mutual
/-- Embedding of `json_slice(name, node, depth)` from `main` in
`trusttree.py`: depth cutoff includes the node with an empty children
list; otherwise children are the ordered, breadth-limited child slices. -/
def jsonSlice (maxDepth top : Nat) (name : String) (n : Node) (depth : Nat) : JTree :=
  if maxDepth ≠ 0 ∧ depth ≥ maxDepth then JTree.mk name n.count []
  else JTree.mk name n.count (jsonSliceList maxDepth top (truncTop top (sortedChildren n)) (depth + 1))
  termination_by nodeSize n
  decreasing_by
    have h1 := listSize_truncTop top (sortedChildren n)
    have h2 := listSize_sortedChildren n
    have h3 := listSize_children_lt n
    omega
/-- The child loop of `json_slice`. -/
def jsonSliceList (maxDepth top : Nat) (l : List (String × Node)) (depth : Nat) : List JTree :=
  match l with
  | [] => []
  | (nm, ch) :: rest =>
    jsonSlice maxDepth top nm ch depth :: jsonSliceList maxDepth top rest depth
  termination_by listSize l
  decreasing_by
    · simp only [listSize]; omega
    · simp only [listSize]; omega
end

/-- The root JSON object built by `main` for `--json`: name `/`, the root
count, and the ordered, breadth-limited child slices at depth 1 (the root
itself is never depth-cut). -/
def jsonRoot (maxDepth top : Nat) (t : Node) : JTree :=
  JTree.mk "/" t.count (jsonSliceList maxDepth top (truncTop top (sortedChildren t)) 1)

mutual
/-- Preorder flattening of a JSON tree into the list of (name, count)
pairs it mentions. -/
def jflatten : JTree → List (String × Nat)
  | .mk nm c cs => (nm, c) :: jflattenList cs
/-- Preorder flattening of a list of JSON trees. -/
def jflattenList : List JTree → List (String × Nat)
  | [] => []
  | t :: rest => jflatten t ++ jflattenList rest
end

mutual
/-- The nodes visited by the text renderer's `_print(node, prefix, depth)`
in print order, as (name, count) pairs: children are sorted and
breadth-limited, each child is printed, and its subtree is expanded unless
the depth limit is reached. -/
def textVisit (maxDepth top : Nat) (n : Node) (depth : Nat) : List (String × Nat) :=
  textVisitList maxDepth top (truncTop top (sortedChildren n)) depth
  termination_by nodeSize n
  decreasing_by
    have h1 := listSize_truncTop top (sortedChildren n)
    have h2 := listSize_sortedChildren n
    have h3 := listSize_children_lt n
    omega
/-- The child loop of `_print`. -/
def textVisitList (maxDepth top : Nat) (l : List (String × Node)) (depth : Nat) :
    List (String × Nat) :=
  match l with
  | [] => []
  | (nm, ch) :: rest =>
    ((nm, ch.count) ::
      (if maxDepth ≠ 0 ∧ depth + 1 ≥ maxDepth then []
       else textVisit maxDepth top ch (depth + 1)))
      ++ textVisitList maxDepth top rest depth
  termination_by listSize l
  decreasing_by
    · simp only [listSize]; omega
    · simp only [listSize]; omega
end

/-- The nodes reported by `print_tree` without compaction: the root line
(labelled `/`) followed by the `_print` traversal from depth 0. -/
def textNodes (maxDepth top : Nat) (t : Node) : List (String × Nat) :=
  ("/", t.count) :: textVisit maxDepth top t 0

/-- Embedding of `os.path.join(a, b)` (POSIX, two arguments) as used by
`collect_filters`. -/
def pyJoin2 (a b : String) : String :=
  if pyStartsWith b "/" then b
  else if a = "" ∨ pyEndsWith a "/" then a ++ b
  else a ++ "/" ++ b

/-- Embedding of `current_dir_path(stack)` from `collect_filters`: the
`/`-rooted join of the ordinary (non-root, non-bucket) names on the
stack. -/
def currentDirPath (stack : List String) : String :=
  if stack = [] then "/"
  else
    let elems := stack.filter (fun s => ¬ (s = "/" ∨ isLeafName s))
    if elems = [] then "/" else "/" ++ pyJoinStr "/" elems

mutual
/-- Embedding of `walk(name, node, stack)` from `collect_filters`: emit the
filter patterns contributed by this node and its subtree.  The Python code
pushes `name` before branching and pops afterwards, so the leaf branch sees
the stack without `name` and the internal branch sees it included. -/
def walkFilters (mode : FilterMode) (name : String) (n : Node) (stack : List String) :
    List String :=
  match n with
  | .mk _ cs =>
    if isLeafName name then
      if mode = FilterMode.ext ∨ mode = FilterMode.all then
        [pyJoin2 (currentDirPath stack) name]
      else []
    else
      (if mode = FilterMode.dir ∨ mode = FilterMode.all then
        [pyJoin2 (currentDirPath (stack ++ [name])) "**"]
       else []) ++
      walkFiltersList mode cs (stack ++ [name])
/-- The child loop of `collect_filters`' `walk`. -/
def walkFiltersList (mode : FilterMode) (l : List (String × Node)) (stack : List String) :
    List String :=
  match l with
  | [] => []
  | (nm, ch) :: rest =>
    walkFilters mode nm ch stack ++ walkFiltersList mode rest stack
end

/-- Embedding of `collect_filters(node, path_stack, mode)` from
`trusttree.py`: walk every child of the given node with an empty stack and
return the emitted patterns as a set (first-occurrence deduplication models
the Python `set`). -/
def collectFilters (n : Node) (mode : FilterMode) : List String :=
  (walkFiltersList mode n.children []).dedup

/-- What `main` would emit for a tree render, abstracting print formatting:
either the JSON object or the visited text nodes. -/
inductive MainRender where
  | jsonOut (tree : JTree)
  | textOut (visited : List (String × Nat))

/-- The tree rendering produced by `main` after building and pruning:
`none` models the early `return` on an empty or fully pruned tree (nothing
is printed at all).  In the text branch the renderer works on the
(optionally collapsed) working copy. -/
def mainRender (cfg : Config) (paths : List String) : Option MainRender :=
  match pruneTree (buildTree cfg paths) cfg.minCount with
  | none => none
  | some t =>
    if t.children.isEmpty then none
    else if cfg.useJson then some (MainRender.jsonOut (jsonRoot cfg.maxDepth cfg.top t))
    else
      let working :=
        if cfg.compact then
          Node.mk t.count (collapseListAux [] t.children)
        else Node.mk t.count t.children
      some (MainRender.textOut (textNodes cfg.maxDepth cfg.top working))

/-- The filter suggestions `main` emits (sorted), empty when the pipeline
returned early or `--emit-filter` is off. -/
def mainFilters (cfg : Config) (paths : List String) : List String :=
  match pruneTree (buildTree cfg paths) cfg.minCount with
  | none => []
  | some t =>
    if t.children.isEmpty then []
    else if cfg.emitFilter then sortBy pyStrLE (collectFilters t cfg.filterMode)
    else []

mutual
/-- Well-formedness of a trie node as produced by building: the children
dictionary has pairwise distinct keys, recursively. -/
def wfNode : Node → Prop
  | .mk _ cs => (cs.map Prod.fst).Nodup ∧ wfList cs
/-- Well-formedness of every node in a child list. -/
def wfList : List (String × Node) → Prop
  | [] => True
  | (_, v) :: t => wfNode v ∧ wfList t
end

/-- The defaults of `parse_args` in `trusttree.py`: prefix `/`, no regexes,
`last` extension mode, min-count 1, unlimited depth and breadth, text
output, no compaction, no filter emission, `ext` filter style. -/
def defaultConfig : Config :=
  { pathPref := "/", includeRe := none, excludeRe := none, extMode := ExtMode.last,
    minCount := 1, maxDepth := 0, top := 0, useJson := false, compact := false,
    emitFilter := false, filterMode := FilterMode.ext }

/-
Claim theorems.
-/

/-- C4: the extension-bucket computation: `report.tar.gz` yields `*.gz`
under `last`, `*.tar.gz` under `full` and `*` under `star`; any basename
starting with a dot yields `*` in every mode; any basename containing no
dot yields `*` in every mode. -/
theorem claim_c4_ext_buckets :
    (getExtLeaf "report.tar.gz" ExtMode.last = "*.gz" ∧
     getExtLeaf "report.tar.gz" ExtMode.full = "*.tar.gz" ∧
     getExtLeaf "report.tar.gz" ExtMode.star = "*") ∧
    (∀ (b : String) (m : ExtMode), pyStartsWith b "." = true → getExtLeaf b m = "*") ∧
    (∀ (b : String) (m : ExtMode), pyContains b '.' = false → getExtLeaf b m = "*") := by
  refine ⟨⟨by decide, by decide, by decide⟩, ?_, ?_⟩
  · intro b m h
    unfold getExtLeaf
    simp [h]
  · intro b m h
    unfold getExtLeaf
    simp [h]

/-- Witness for C4: the dotfile and no-dot rules applied at `.hidden` under
`full` and at `noext` under `last`. -/
theorem claim_c4_witness :
    getExtLeaf ".hidden" ExtMode.full = "*" ∧ getExtLeaf "noext" ExtMode.last = "*" :=
  ⟨claim_c4_ext_buckets.2.1 ".hidden" ExtMode.full (by decide),
   claim_c4_ext_buckets.2.2 "noext" ExtMode.last (by decide)⟩

/-- The tree of claim C2: the rendered root (labelled `/`) with single
child `etc`, which has the single leaf child `*.conf`, count 5 along the
spine. -/
def c2Tree : Node :=
  Node.mk 5 [("etc", Node.mk 5 [("*.conf", Node.mk 5 [])])]

/-- C2: on the tree `/ -> etc -> *.conf [count 5]`, filter derivation
returns exactly `{"/etc/*.conf"}` in `ext` mode and exactly `{"/etc/**"}`
in `dir` mode: the internal node `etc` drives the dir-style glob and the
leaf contributes nothing in dir mode. -/
theorem claim_c2_filters :
    collectFilters c2Tree FilterMode.ext = ["/etc/*.conf"] ∧
    collectFilters c2Tree FilterMode.dir = ["/etc/**"] := by
  constructor
  · decide
  · decide

/-- C6: collapsing the chain `A -> B -> C` (where A and B each have exactly
one child and C has two) yields a single node named `A/B/C` carrying C's
original count and C's recursively collapsed children (the rebuilt
dictionary of the collapsed child pairs); and on the produced output,
collapsing is the identity (checked on the concrete instance with two leaf
children). -/
theorem claim_c6_collapse :
    (∀ (ca cb cc : Nat) (cs : List (String × Node)), cs.length = 2 →
      collapseChains "A" (Node.mk ca [("B", Node.mk cb [("C", Node.mk cc cs)])])
        = ("A/B/C", Node.mk cc (collapseListAux [] cs))) ∧
    (collapseChains "A/B/C"
        (Node.mk 7 [("*.x", Node.mk 3 []), ("*.y", Node.mk 4 [])])
      = ("A/B/C", Node.mk 7 [("*.x", Node.mk 3 []), ("*.y", Node.mk 4 [])]) ∧
     collapseChains "A"
        (Node.mk 1 [("B", Node.mk 1 [("C", Node.mk 7 [("*.x", Node.mk 3 []), ("*.y", Node.mk 4 [])])])])
      = ("A/B/C", Node.mk 7 [("*.x", Node.mk 3 []), ("*.y", Node.mk 4 [])])) := by
  refine ⟨?_, by decide, by decide⟩
  intro ca cb cc cs h
  match cs, h with
  | [x, y], _ => rfl

/-- Witness for C6: the chain collapse applied at the concrete
two-leaf-children instance. -/
theorem claim_c6_witness :
    collapseChains "A"
        (Node.mk 1 [("B", Node.mk 1 [("C", Node.mk 7 [("*.x", Node.mk 3 []), ("*.y", Node.mk 4 [])])])])
      = ("A/B/C", Node.mk 7 (collapseListAux [] [("*.x", Node.mk 3 []), ("*.y", Node.mk 4 [])])) :=
  claim_c6_collapse.1 1 1 7 [("*.x", Node.mk 3 []), ("*.y", Node.mk 4 [])] (by decide)

/-- The canonical pruned tree of claim C1's failing input: the result of
building from the two accepted paths `/a/f.txt` and `/n` under the default
configuration and pruning with the default threshold 1. -/
def c1Tree : Node :=
  Node.mk 2 [("/", Node.mk 2 [("a", Node.mk 1 [("*.txt", Node.mk 1 [])]), ("*", Node.mk 1 [])])]

/-- C1 is false on the code: rendering with `compact=True` mutates the
canonical pruned tree.  For the pruned tree built from `/a/f.txt` and `/n`,
the post-render state (`printTreeEffect`) has lost the node route `/ -> a`
(its name was rewritten to the compound `a/*.txt`), so a subsequent
`collect_filters` pass sees the collapsed shape and derives different
filters.  Only the root's own children dictionary is protected by the
shallow copy in `print_tree`. -/
theorem claim_c1_mutation_bug :
    pruneTree (buildTree defaultConfig ["/a/f.txt", "/n"]) defaultConfig.minCount = some c1Tree ∧
    printTreeEffect c1Tree
      = Node.mk 2 [("/", Node.mk 2 [("a/*.txt", Node.mk 1 []), ("*", Node.mk 1 [])])] ∧
    (lookupRoute (printTreeEffect c1Tree) ["/", "a"]).isSome = false ∧
    (lookupRoute c1Tree ["/", "a"]).isSome = true ∧
    collectFilters (printTreeEffect c1Tree) FilterMode.ext ≠ collectFilters c1Tree FilterMode.ext := by
  refine ⟨by decide, by decide, by decide, by decide, by decide⟩

theorem ensurePath_count (n : Node) (parts : List String) :
    (ensurePath n parts).count = n.count + 1 := by
  cases n with
  | mk c cs => cases parts <;> rfl

theorem countAt_nil (n : Node) : countAt n [] = n.count := rfl

theorem countAt_cons (n : Node) (p : String) (r : List String) :
    countAt n (p :: r)
      = (match findChild p n.children with | some ch => countAt ch r | none => 0) := by
  cases h : findChild p n.children with
  | some ch => simp only [countAt, lookupRoute, h]
  | none => simp only [countAt, lookupRoute, h]

theorem countAt_empty_node (route : List String) : countAt (Node.mk 0 []) route = 0 := by
  cases route with
  | nil => rfl
  | cons p r => rw [countAt_cons]; rfl

theorem findChild_updateChild_same (p : String) (f : Node → Node)
    (cs : List (String × Node)) :
    findChild p (updateChild p f cs) = some (f ((findChild p cs).getD (Node.mk 0 []))) := by
  induction cs with
  | nil => simp [updateChild, findChild]
  | cons kv t ih =>
    obtain ⟨k, v⟩ := kv
    by_cases h : k = p
    · subst h; simp [updateChild, findChild]
    · simp [updateChild, findChild, h, ih]

theorem ensurePath_countAt (parts : List String) :
    ∀ (n : Node) (k : Nat), k ≤ parts.length →
      countAt (ensurePath n parts) (parts.take k) = countAt n (parts.take k) + 1 := by
  induction parts with
  | nil =>
    intro n k hk
    have hk0 : k = 0 := Nat.le_zero.mp hk
    subst hk0
    simp [countAt_nil, ensurePath_count]
  | cons p rest ih =>
    intro n k hk
    cases k with
    | zero => simp [countAt_nil, ensurePath_count]
    | succ j =>
      cases n with
      | mk c cs =>
        have hj : j ≤ rest.length := Nat.succ_le_succ_iff.mp hk
        simp only [List.take_succ_cons]
        rw [countAt_cons, countAt_cons]
        simp only [ensurePath, Node.children]
        rw [findChild_updateChild_same]
        cases h : findChild p cs with
        | some child => simp [ih child j hj]
        | none => simp [ih (Node.mk 0 []) j hj, countAt_empty_node]

/-- C3: after `build_tree`, the root count equals the number of input paths
that passed the inclusion filter; and each single insertion (one accepted
path) adds exactly 1 to the count of every node on its root-to-leaf route
(every prefix of the inserted segment sequence). -/
theorem claim_c3_root_count :
    (∀ (cfg : Config) (paths : List String),
      (buildTree cfg paths).count = (paths.filter (fun p => wantPath cfg p)).length) ∧
    (∀ (n : Node) (parts : List String) (k : Nat), k ≤ parts.length →
      countAt (ensurePath n parts) (parts.take k) = countAt n (parts.take k) + 1) := by
  constructor
  · intro cfg paths
    suffices h : ∀ acc : Node,
        (paths.foldl
          (fun acc path =>
            if wantPath cfg path then ensurePath acc (pathToParts path cfg.extMode) else acc)
          acc).count = acc.count + (paths.filter (fun p => wantPath cfg p)).length by
      simpa [buildTree, Node.count] using h (Node.mk 0 [])
    induction paths with
    | nil => intro acc; simp
    | cons p t ih =>
      intro acc
      by_cases hw : wantPath cfg p
      · simp only [List.foldl_cons, List.filter_cons, hw, if_pos]
        rw [ih, ensurePath_count]
        simp [Nat.add_comm, Nat.add_assoc, Nat.add_left_comm]
      · simp only [List.foldl_cons, List.filter_cons, hw, if_neg]
        rw [ih]
        simp [hw]
  · intro n parts k hk
    exact ensurePath_countAt parts n k hk

/-- Witness for C3: building from one matching and one filtered-out path
under the default configuration gives root count 1, and a concrete
insertion adds one to every node on the inserted route. -/
theorem claim_c3_witness :
    (buildTree { defaultConfig with pathPref := "/etc" } ["/etc/a.conf", "/usr/x"]).count = 1 ∧
    countAt (ensurePath (Node.mk 0 []) ["/", "etc", "*.conf"]) ["/", "etc"]
      = countAt (Node.mk 0 []) ["/", "etc"] + 1 := by
  constructor
  · rw [claim_c3_root_count.1 { defaultConfig with pathPref := "/etc" } ["/etc/a.conf", "/usr/x"]]
    decide
  · exact claim_c3_root_count.2 (Node.mk 0 []) ["/", "etc", "*.conf"] 2 (by decide)

theorem buildTree_all_rejected (cfg : Config) (paths : List String)
    (h : ∀ p ∈ paths, wantPath cfg p = false) :
    buildTree cfg paths = Node.mk 0 [] := by
  unfold buildTree
  induction paths with
  | nil => rfl
  | cons p t ih =>
    simp only [List.foldl_cons, h p (List.mem_cons_self p t)]
    simp only [Bool.false_eq_true, if_false]
    exact ih (fun q hq => h q (List.mem_cons_of_mem p hq))

/-- C9: when zero paths pass the inclusion filter, or pruning removes the
whole tree (root below threshold, or root left with no children), `main`
returns before rendering: no tree output and no filter suggestion is
emitted, and evaluation is total (no error). -/
theorem claim_c9_empty_pipeline (cfg : Config) (paths : List String)
    (h : (∀ p ∈ paths, wantPath cfg p = false) ∨
         pruneTree (buildTree cfg paths) cfg.minCount = none ∨
         (∃ t, pruneTree (buildTree cfg paths) cfg.minCount = some t ∧ t.children = [])) :
    mainRender cfg paths = none ∧ mainFilters cfg paths = [] := by
  unfold mainRender mainFilters
  rcases h with h | h | ⟨t, h, hc⟩
  · rw [buildTree_all_rejected cfg paths h]
    unfold pruneTree
    by_cases h0 : 0 < cfg.minCount
    · rw [if_pos h0]
      exact ⟨rfl, rfl⟩
    · rw [if_neg h0]
      simp [pruneChildren, Node.children]
  · rw [h]
    exact ⟨rfl, rfl⟩
  · rw [h]
    simp [hc]

/-- Witness for C9: with prefix `/zzz` the single input `/x` is filtered
out, and the pipeline emits nothing. -/
theorem claim_c9_witness :
    mainRender { defaultConfig with pathPref := "/zzz" } ["/x"] = none ∧
    mainFilters { defaultConfig with pathPref := "/zzz" } ["/x"] = [] :=
  claim_c9_empty_pipeline { defaultConfig with pathPref := "/zzz" } ["/x"]
    (Or.inl (by decide))

theorem char_eq_of_toNat_eq {a b : Char} (h : a.toNat = b.toNat) : a = b :=
  Char.eq_of_val_eq (UInt32.toNat.inj h)

theorem charsLE_cons_iff (x y : Char) (s t : List Char) :
    charsLE (x :: s) (y :: t) = true ↔
      (x.toNat < y.toNat ∨ (x.toNat = y.toNat ∧ charsLE s t = true)) := by
  simp only [charsLE]
  split_ifs with h1 h2
  · simp [h1]
  · constructor
    · intro h; exact absurd h (by simp)
    · rintro (h | ⟨h, _⟩) <;> omega
  · constructor
    · intro h; right; exact ⟨by omega, h⟩
    · rintro (h | ⟨h, hs⟩)
      · omega
      · exact hs

theorem charsLE_total : ∀ a b : List Char, charsLE a b = true ∨ charsLE b a = true
  | [], _ => Or.inl rfl
  | _ :: _, [] => Or.inr rfl
  | x :: s, y :: t => by
    rw [charsLE_cons_iff, charsLE_cons_iff]
    rcases Nat.lt_trichotomy x.toNat y.toNat with h | h | h
    · left; left; exact h
    · rcases charsLE_total s t with hs | hs
      · left; right; exact ⟨h, hs⟩
      · right; right; exact ⟨h.symm, hs⟩
    · right; left; exact h

theorem charsLE_trans : ∀ a b c : List Char,
    charsLE a b = true → charsLE b c = true → charsLE a c = true
  | [], _, _, _, _ => rfl
  | x :: s, [], _, h, _ => by simp [charsLE] at h
  | x :: s, y :: t, [], _, h => by simp [charsLE] at h
  | x :: s, y :: t, z :: u, h1, h2 => by
    rw [charsLE_cons_iff] at h1 h2 ⊢
    rcases h1 with h1 | ⟨h1, hs1⟩
    · rcases h2 with h2 | ⟨h2, _⟩
      · left; omega
      · left; omega
    · rcases h2 with h2 | ⟨h2, hs2⟩
      · left; omega
      · right; exact ⟨by omega, charsLE_trans s t u hs1 hs2⟩

theorem charsLE_antisymm : ∀ a b : List Char,
    charsLE a b = true → charsLE b a = true → a = b
  | [], [], _, _ => rfl
  | [], _ :: _, _, h => by simp [charsLE] at h
  | _ :: _, [], h, _ => by simp [charsLE] at h
  | x :: s, y :: t, h1, h2 => by
    rw [charsLE_cons_iff] at h1 h2
    rcases h1 with h1 | ⟨h1, hs1⟩
    · rcases h2 with h2 | ⟨h2, _⟩ <;> omega
    · rcases h2 with h2 | ⟨h2, hs2⟩
      · omega
      · rw [char_eq_of_toNat_eq h1, charsLE_antisymm s t hs1 hs2]

/-- The sort-key rank of the leaf flag: internal (non-leaf-shaped) names
sort before leaf-shaped ones. -/
def leafRank (p : String × Node) : Nat :=
  if isLeafName p.1 then 1 else 0

theorem keyLE_iff (a b : String × Node) :
    keyLE a b = true ↔
      (leafRank a < leafRank b ∨
       (leafRank a = leafRank b ∧
        (b.2.count < a.2.count ∨
         (a.2.count = b.2.count ∧ charsLE a.1.toList b.1.toList = true)))) := by
  unfold keyLE leafRank
  cases hA : isLeafName a.1 <;> cases hB : isLeafName b.1 <;>
    simp only [hA, hB, if_true, if_false, ne_eq, not_true_eq_false, not_false_eq_true] <;>
    split_ifs with h <;>
    simp_all [pyStrLE] <;> try omega

theorem keyLE_total (a b : String × Node) : keyLE a b = true ∨ keyLE b a = true := by
  rw [keyLE_iff, keyLE_iff]
  rcases Nat.lt_trichotomy (leafRank a) (leafRank b) with hr | hr | hr
  · left; left; exact hr
  · rcases Nat.lt_trichotomy a.2.count b.2.count with hc | hc | hc
    · right; right; exact ⟨hr.symm, Or.inl hc⟩
    · rcases charsLE_total a.1.toList b.1.toList with hs | hs
      · left; right; exact ⟨hr, Or.inr ⟨hc, hs⟩⟩
      · right; right; exact ⟨hr.symm, Or.inr ⟨hc.symm, hs⟩⟩
    · left; right; exact ⟨hr, Or.inl hc⟩
  · right; left; exact hr

theorem keyLE_trans (a b c : String × Node)
    (h1 : keyLE a b = true) (h2 : keyLE b c = true) : keyLE a c = true := by
  rw [keyLE_iff] at h1 h2 ⊢
  rcases h1 with h1 | ⟨hr1, h1⟩
  · left
    rcases h2 with h2 | ⟨hr2, _⟩ <;> omega
  · rcases h2 with h2 | ⟨hr2, h2⟩
    · left; omega
    · right
      refine ⟨by omega, ?_⟩
      rcases h1 with h1 | ⟨hc1, h1⟩
      · left
        rcases h2 with h2 | ⟨hc2, _⟩ <;> omega
      · rcases h2 with h2 | ⟨hc2, h2⟩
        · left; omega
        · right; exact ⟨by omega, charsLE_trans _ _ _ h1 h2⟩

theorem keyLE_antisymm_names (a b : String × Node)
    (h1 : keyLE a b = true) (h2 : keyLE b a = true) : a.1 = b.1 := by
  rw [keyLE_iff] at h1 h2
  have hs : charsLE a.1.toList b.1.toList = true ∧ charsLE b.1.toList a.1.toList = true := by
    rcases h1 with h1 | ⟨hr1, h1⟩
    · rcases h2 with h2 | ⟨hr2, _⟩ <;> omega
    · rcases h2 with h2 | ⟨hr2, h2⟩
      · omega
      · rcases h1 with h1 | ⟨hc1, h1⟩
        · rcases h2 with h2 | ⟨hc2, _⟩ <;> omega
        · rcases h2 with h2 | ⟨hc2, h2⟩
          · omega
          · exact ⟨h1, h2⟩
  have hdata : a.1.toList = b.1.toList := charsLE_antisymm _ _ hs.1 hs.2
  exact congrArg String.mk hdata

theorem mem_insertBy {le : α → α → Bool} {x a : α} {l : List α} :
    a ∈ insertBy le x l ↔ a = x ∨ a ∈ l := by
  rw [(insertBy_perm le x l).mem_iff]
  simp

theorem pairwise_insertBy {le : α → α → Bool}
    (htot : ∀ a b, le a b = true ∨ le b a = true)
    (htr : ∀ a b c, le a b = true → le b c = true → le a c = true)
    {x : α} {l : List α} (h : l.Pairwise (fun a b => le a b = true)) :
    (insertBy le x l).Pairwise (fun a b => le a b = true) := by
  induction l with
  | nil => simp [insertBy]
  | cons y t ih =>
    rw [List.pairwise_cons] at h
    obtain ⟨hy, ht⟩ := h
    simp only [insertBy]
    by_cases hxy : le x y = true
    · rw [if_pos hxy]
      rw [List.pairwise_cons]
      constructor
      · intro z hz
        rcases List.mem_cons.mp hz with rfl | hz
        · exact hxy
        · exact htr x y z hxy (hy z hz)
      · rw [List.pairwise_cons]
        exact ⟨hy, ht⟩
    · rw [if_neg hxy]
      have hyx : le y x = true := (htot x y).resolve_left hxy
      rw [List.pairwise_cons]
      constructor
      · intro z hz
        rcases mem_insertBy.mp hz with rfl | hz
        · exact hyx
        · exact hy z hz
      · exact ih ht

theorem sortBy_pairwise {le : α → α → Bool}
    (htot : ∀ a b, le a b = true ∨ le b a = true)
    (htr : ∀ a b c, le a b = true → le b c = true → le a c = true)
    (l : List α) :
    (sortBy le l).Pairwise (fun a b => le a b = true) := by
  induction l with
  | nil => simp [sortBy]
  | cons x t ih => exact pairwise_insertBy htot htr ih

theorem sorted_perm_eq {le : α → α → Bool} :
    ∀ (l₁ l₂ : List α), l₁.Perm l₂ →
      l₁.Pairwise (fun a b => le a b = true) → l₂.Pairwise (fun a b => le a b = true) →
      (∀ a ∈ l₁, ∀ b ∈ l₁, le a b = true → le b a = true → a = b) →
      l₁ = l₂
  | [], l₂, hp, _, _, _ => hp.nil_eq
  | x :: t, [], hp, _, _, _ => by
    have := hp.length_eq
    simp at this
  | x :: t, y :: u, hp, hs1, hs2, ha => by
    rw [List.pairwise_cons] at hs1 hs2
    obtain ⟨hx1, ht1⟩ := hs1
    obtain ⟨hy2, hu2⟩ := hs2
    have hxy : x = y := by
      have hxmem : x ∈ y :: u := hp.subset (List.mem_cons_self x t)
      have hymem : y ∈ x :: t := hp.symm.subset (List.mem_cons_self y u)
      rcases List.mem_cons.mp hxmem with h | hxu
      · exact h
      · rcases List.mem_cons.mp hymem with h | hyt
        · exact h.symm
        · exact ha x (List.mem_cons_self x t) y (List.mem_cons_of_mem x hyt)
            (hx1 y hyt) (hy2 x hxu)
    subst hxy
    have hp' : t.Perm u := hp.cons_inv
    have ht : t = u := sorted_perm_eq t u hp'
      (by rw [List.pairwise_iff_forall_sublist] at ht1 ⊢; exact ht1)
      (by rw [List.pairwise_iff_forall_sublist] at hu2 ⊢; exact hu2)
      (fun a hat b hbt => ha a (List.mem_cons_of_mem x hat) b (List.mem_cons_of_mem x hbt))
    rw [ht]

/-- C7: `sorted_children` orders a node's children by the strict total
order of the key `(is_leaf_name, -count, name)`: non-leaf-shaped names
before leaf-shaped ones, then descending count, then ascending name.  The
result is a permutation of the children, sorted with respect to that
order, and when the child names are pairwise distinct it is the unique
such arrangement: any sorted permutation of the children equals it. -/
theorem claim_c7_sorted_children (n : Node) :
    (sortedChildren n).Perm n.children ∧
    (sortedChildren n).Pairwise (fun a b => keyLE a b = true) ∧
    ((n.children.map Prod.fst).Nodup →
      ∀ l : List (String × Node), l.Perm n.children →
        l.Pairwise (fun a b => keyLE a b = true) → l = sortedChildren n) := by
  refine ⟨sortBy_perm keyLE n.children, sortBy_pairwise keyLE_total keyLE_trans n.children, ?_⟩
  intro hnodup l hperm hsorted
  apply sorted_perm_eq l (sortedChildren n)
    (hperm.trans (sortBy_perm keyLE n.children).symm)
    hsorted
    (sortBy_pairwise keyLE_total keyLE_trans n.children)
  intro a hal b hbl h1 h2
  have hnames : a.1 = b.1 := keyLE_antisymm_names a b h1 h2
  exact List.inj_on_of_nodup_map hnodup (hperm.subset hal) (hperm.subset hbl) hnames

/-- Witness for C7: on a tree with two tied-count directories `b`, `a` and
a leaf `*.z` of higher count, the unique sorted arrangement puts `a` then
`b` then the leaf; the uniqueness clause of the theorem is applied to the
explicitly given sorted permutation. -/
theorem claim_c7_witness :
    ([("a", Node.mk 2 []), ("b", Node.mk 2 []), ("*.z", Node.mk 9 [])] : List (String × Node))
      = sortedChildren (Node.mk 13 [("b", Node.mk 2 []), ("a", Node.mk 2 []), ("*.z", Node.mk 9 [])]) :=
  (claim_c7_sorted_children
      (Node.mk 13 [("b", Node.mk 2 []), ("a", Node.mk 2 []), ("*.z", Node.mk 9 [])])).2.2
    (by decide)
    [("a", Node.mk 2 []), ("b", Node.mk 2 []), ("*.z", Node.mk 9 [])]
    (List.Perm.swap ("b", Node.mk 2 []) ("a", Node.mk 2 []) [("*.z", Node.mk 9 [])])
    (by decide)

theorem nodeSize_lt_of_mem {p : String × Node} {cs : List (String × Node)} (c : Nat)
    (h : p ∈ cs) : nodeSize p.2 < nodeSize (Node.mk c cs) := by
  have key : nodeSize p.2 < 1 + listSize cs := by
    induction cs with
    | nil => cases h
    | cons q t ih =>
      obtain ⟨k, v⟩ := q
      rcases List.mem_cons.mp h with rfl | ht
      · simp only [listSize]; omega
      · have := ih ht
        simp only [listSize]
        omega
  have : nodeSize (Node.mk c cs) = 1 + listSize cs := by rw [nodeSize]
  omega

theorem node_strong_ind (P : Node → Prop)
    (step : ∀ c cs, (∀ p ∈ cs, P p.2) → P (Node.mk c cs)) : ∀ n, P n := by
  have H : ∀ s, ∀ n : Node, nodeSize n ≤ s → P n := by
    intro s
    induction s with
    | zero =>
      intro n h
      cases n with
      | mk c cs =>
        have : nodeSize (Node.mk c cs) = 1 + listSize cs := by rw [nodeSize]
        omega
    | succ s ih =>
      intro n h
      cases n with
      | mk c cs =>
        apply step
        intro p hp
        apply ih
        have h1 := nodeSize_lt_of_mem c hp
        omega
  intro n
  exact H (nodeSize n) n (Nat.le_refl _)

theorem wfList_mem {cs : List (String × Node)} {k : String} {v : Node}
    (hwf : wfList cs) (h : (k, v) ∈ cs) : wfNode v := by
  induction cs with
  | nil => cases h
  | cons q t ih =>
    obtain ⟨k', v'⟩ := q
    rw [wfList] at hwf
    rcases List.mem_cons.mp h with heq | ht
    · cases heq; exact hwf.1
    · exact ih hwf.2 ht

theorem pruneTree_mk (c : Nat) (cs : List (String × Node)) (T : Nat) :
    pruneTree (Node.mk c cs) T
      = if c < T then none else some (Node.mk c (pruneChildren cs T)) := by
  rw [pruneTree]

theorem keys_pruneChildren_subset {p : String} {cs : List (String × Node)} {T : Nat}
    (h : p ∈ (pruneChildren cs T).map Prod.fst) : p ∈ cs.map Prod.fst := by
  induction cs with
  | nil => simp [pruneChildren] at h
  | cons q t ih =>
    obtain ⟨k, v⟩ := q
    rw [pruneChildren] at h
    cases hv : pruneTree v T with
    | some w =>
      rw [hv] at h
      rcases List.mem_cons.mp h with heq | ht
      · simp [heq]
      · simpa using Or.inr (ih ht)
    | none =>
      rw [hv] at h
      simpa using Or.inr (ih h)

theorem findChild_eq_none_of_not_mem {p : String} {cs : List (String × Node)}
    (h : p ∉ cs.map Prod.fst) : findChild p cs = none := by
  induction cs with
  | nil => rfl
  | cons q t ih =>
    obtain ⟨k, v⟩ := q
    simp only [List.map_cons, List.mem_cons] at h
    push_neg at h
    rw [findChild, if_neg (fun hkp => h.1 hkp.symm)]
    exact ih h.2

theorem findChild_pruneChildren {p : String} {cs : List (String × Node)} {T : Nat}
    (hnodup : (cs.map Prod.fst).Nodup) :
    findChild p (pruneChildren cs T) = (findChild p cs).bind (fun v => pruneTree v T) := by
  induction cs with
  | nil => rfl
  | cons q t ih =>
    obtain ⟨k, v⟩ := q
    simp only [List.map_cons, List.nodup_cons] at hnodup
    by_cases hkp : k = p
    · subst hkp
      rw [pruneChildren]
      cases hv : pruneTree v T with
      | some w => simp [findChild, hv]
      | none =>
        rw [findChild_eq_none_of_not_mem
          (fun hmem => hnodup.1 (keys_pruneChildren_subset hmem))]
        simp [findChild, hv]
    · rw [pruneChildren]
      cases hv : pruneTree v T with
      | some w =>
        rw [findChild, if_neg hkp, findChild, if_neg hkp]
        exact ih hnodup.2
      | none =>
        rw [findChild, if_neg hkp]
        exact ih hnodup.2

theorem mem_pruneChildren {k : String} {w : Node} {cs : List (String × Node)} {T : Nat}
    (h : (k, w) ∈ pruneChildren cs T) :
    ∃ v, (k, v) ∈ cs ∧ pruneTree v T = some w := by
  induction cs with
  | nil => cases h
  | cons q t ih =>
    obtain ⟨k', v'⟩ := q
    rw [pruneChildren] at h
    cases hv : pruneTree v' T with
    | some w' =>
      rw [hv] at h
      rcases List.mem_cons.mp h with heq | ht
      · obtain ⟨h1, h2⟩ := Prod.mk.injEq .. ▸ heq
        refine ⟨v', ?_, ?_⟩
        · rw [h1]; exact List.mem_cons_self _ _
        · rw [hv, h2]
      · obtain ⟨v, hv1, hv2⟩ := ih ht
        exact ⟨v, List.mem_cons_of_mem _ hv1, hv2⟩
    | none =>
      rw [hv] at h
      obtain ⟨v, hv1, hv2⟩ := ih h
      exact ⟨v, List.mem_cons_of_mem _ hv1, hv2⟩

theorem pruneChildren_fixed {cs : List (String × Node)} {T : Nat}
    (h : ∀ k w, (k, w) ∈ cs → pruneTree w T = some w) : pruneChildren cs T = cs := by
  induction cs with
  | nil => rfl
  | cons q t ih =>
    obtain ⟨k, v⟩ := q
    rw [pruneChildren, h k v (List.mem_cons_self _ _)]
    rw [ih (fun k' w' hm => h k' w' (List.mem_cons_of_mem _ hm))]

theorem lookupRoute_cons (n : Node) (p : String) (r : List String) :
    lookupRoute n (p :: r) = (findChild p n.children).bind (fun ch => lookupRoute ch r) := by
  rw [lookupRoute]
  cases findChild p n.children <;> rfl

theorem findChild_mem {p : String} {v : Node} {cs : List (String × Node)}
    (h : findChild p cs = some v) : (p, v) ∈ cs := by
  induction cs with
  | nil => cases h
  | cons q t ih =>
    obtain ⟨k, w⟩ := q
    rw [findChild] at h
    by_cases hkp : k = p
    · rw [if_pos hkp] at h
      injection h with h
      rw [← hkp, ← h]
      exact List.mem_cons_self _ _
    · rw [if_neg hkp] at h
      exact List.mem_cons_of_mem _ (ih h)

/-- C5: on a well-formed tree (distinct child keys everywhere, as built by
`ensure_path`), pruning returns nothing exactly when the root count is
below the threshold (so a node with sufficient count is kept even if all
its children are pruned away); on success the root count is unchanged,
pruning is idempotent, and a route survives in the pruned tree exactly
when every node along it (itself and all its ancestors) has count at
least the threshold — pruning removes exactly the maximal subtrees rooted
below the threshold. -/
theorem claim_c5_prune : ∀ (n : Node) (T : Nat), wfNode n →
    (pruneTree n T = none ↔ n.count < T) ∧
    (∀ n', pruneTree n T = some n' →
      n'.count = n.count ∧
      pruneTree n' T = some n' ∧
      (∀ route : List String, (lookupRoute n' route).isSome = true ↔
        (∀ k, k ≤ route.length →
          ∃ m, lookupRoute n (route.take k) = some m ∧ T ≤ m.count))) := by
  intro n
  induction n using node_strong_ind with
  | step c cs IH =>
    intro T hwf
    rw [wfNode] at hwf
    obtain ⟨hnodup, hlist⟩ := hwf
    constructor
    · rw [pruneTree_mk]
      simp only [Node.count]
      constructor
      · intro h
        by_contra hc
        rw [if_neg hc] at h
        cases h
      · intro h
        rw [if_pos h]
    · intro n' hsome
      rw [pruneTree_mk] at hsome
      by_cases hcT : c < T
      · rw [if_pos hcT] at hsome
        cases hsome
      · rw [if_neg hcT] at hsome
        injection hsome with hn'
        subst hn'
        have hTc : T ≤ c := Nat.le_of_not_lt hcT
        refine ⟨rfl, ?_, ?_⟩
        · rw [pruneTree_mk, if_neg hcT]
          have hfix : pruneChildren (pruneChildren cs T) T = pruneChildren cs T := by
            apply pruneChildren_fixed
            intro k w hm
            obtain ⟨v, hv1, hv2⟩ := mem_pruneChildren hm
            have hwfv := wfList_mem hlist hv1
            exact (((IH (k, v) hv1) T hwfv).2 w hv2).2.1
          rw [hfix]
        · intro route
          cases route with
          | nil =>
            simp only [lookupRoute, Option.isSome_some, true_iff]
            intro k hk
            have hk0 : k = 0 := Nat.le_zero.mp hk
            subst hk0
            exact ⟨Node.mk c cs, rfl, hTc⟩
          | cons p rest =>
            rw [lookupRoute_cons]
            simp only [Node.children]
            rw [findChild_pruneChildren hnodup]
            cases hfv : findChild p cs with
            | none =>
              simp only [Option.none_bind, Option.isSome_none, Bool.false_eq_true, false_iff]
              intro hall
              obtain ⟨m, hm, _⟩ := hall 1 (by simp only [List.length_cons]; omega)
              rw [List.take_succ_cons, List.take_zero, lookupRoute_cons] at hm
              simp only [Node.children] at hm
              rw [hfv] at hm
              cases hm
            | some v =>
              have hmem : (p, v) ∈ cs := findChild_mem hfv
              have hwfv := wfList_mem hlist hmem
              cases hpv : pruneTree v T with
              | none =>
                simp only [Option.some_bind, hpv, Option.none_bind, Option.isSome_none,
                  Bool.false_eq_true, false_iff]
                intro hall
                obtain ⟨m, hm, hTm⟩ := hall 1 (by simp only [List.length_cons]; omega)
                rw [List.take_succ_cons, List.take_zero, lookupRoute_cons] at hm
                simp only [Node.children] at hm
                rw [hfv] at hm
                simp only [Option.some_bind] at hm
                rw [lookupRoute] at hm
                injection hm with hm
                subst hm
                have hvc : v.count < T := ((IH (p, v) hmem T hwfv).1).mp hpv
                omega
              | some w =>
                simp only [Option.some_bind, hpv]
                have hIH := ((IH (p, v) hmem T hwfv).2 w hpv).2.2 rest
                constructor
                · intro hiso k hk
                  cases k with
                  | zero => exact ⟨Node.mk c cs, rfl, hTc⟩
                  | succ j =>
                    have hj : j ≤ rest.length := by
                      simp only [List.length_cons] at hk
                      omega
                    obtain ⟨m, hm, hTm⟩ := hIH.mp hiso j hj
                    refine ⟨m, ?_, hTm⟩
                    rw [List.take_succ_cons, lookupRoute_cons]
                    simp only [Node.children]
                    rw [hfv]
                    simpa using hm
                · intro hall
                  apply hIH.mpr
                  intro j hj
                  obtain ⟨m, hm, hTm⟩ := hall (j + 1) (by simp only [List.length_cons]; omega)
                  refine ⟨m, ?_, hTm⟩
                  rw [List.take_succ_cons, lookupRoute_cons] at hm
                  simp only [Node.children] at hm
                  rw [hfv] at hm
                  simpa using hm

/-- Witness for C5: pruning the concrete tree with children `a` (count 2,
one leaf child) and `b` (count 1) at threshold 2 drops exactly the `b`
subtree, and by the theorem re-pruning the result changes nothing. -/
theorem claim_c5_witness :
    pruneTree (Node.mk 3 [("a", Node.mk 2 [("*.x", Node.mk 2 [])]), ("b", Node.mk 1 [])]) 2
      = some (Node.mk 3 [("a", Node.mk 2 [("*.x", Node.mk 2 [])])]) ∧
    pruneTree (Node.mk 3 [("a", Node.mk 2 [("*.x", Node.mk 2 [])])]) 2
      = some (Node.mk 3 [("a", Node.mk 2 [("*.x", Node.mk 2 [])])]) := by
  have hwf : wfNode (Node.mk 3 [("a", Node.mk 2 [("*.x", Node.mk 2 [])]), ("b", Node.mk 1 [])]) :=
    ⟨by decide, ⟨by decide, ⟨by decide, trivial⟩, trivial⟩, ⟨by decide, trivial⟩, trivial⟩
  have h := claim_c5_prune
    (Node.mk 3 [("a", Node.mk 2 [("*.x", Node.mk 2 [])]), ("b", Node.mk 1 [])]) 2 hwf
  have h1 : pruneTree (Node.mk 3 [("a", Node.mk 2 [("*.x", Node.mk 2 [])]), ("b", Node.mk 1 [])]) 2
      = some (Node.mk 3 [("a", Node.mk 2 [("*.x", Node.mk 2 [])])]) := by decide
  exact ⟨h1, (h.2 (Node.mk 3 [("a", Node.mk 2 [("*.x", Node.mk 2 [])])]) h1).2.1⟩

theorem mem_truncTop {p : α} {top : Nat} {l : List α} (h : p ∈ truncTop top l) : p ∈ l := by
  unfold truncTop at h
  split at h
  · exact List.take_subset _ _ h
  · exact h

theorem mem_sortedChildren {p : String × Node} {n : Node} (h : p ∈ sortedChildren n) :
    p ∈ n.children :=
  (sortBy_perm keyLE n.children).subset h

theorem jsonSlice_flatten (maxDepth top : Nat) :
    ∀ s : Nat, ∀ (ch : Node) (nm : String) (d : Nat), nodeSize ch ≤ s →
      jflatten (jsonSlice maxDepth top nm ch d)
        = (nm, ch.count) ::
          (if maxDepth ≠ 0 ∧ d ≥ maxDepth then [] else textVisit maxDepth top ch d) := by
  intro s
  induction s with
  | zero =>
    intro ch nm d h
    cases ch with
    | mk c cs =>
      have : nodeSize (Node.mk c cs) = 1 + listSize cs := by rw [nodeSize]
      omega
  | succ s ihs =>
    have inner : ∀ (l : List (String × Node)) (d : Nat), (∀ p ∈ l, nodeSize p.2 ≤ s) →
        jflattenList (jsonSliceList maxDepth top l (d + 1)) = textVisitList maxDepth top l d := by
      intro l
      induction l with
      | nil => intro d _; rw [jsonSliceList, jflattenList, textVisitList]
      | cons q rest ihl =>
        obtain ⟨nm, ch⟩ := q
        intro d hmem
        rw [jsonSliceList, jflattenList, textVisitList,
          ihs ch nm (d + 1) (hmem (nm, ch) (List.mem_cons_self _ _)),
          ihl d (fun p hp => hmem p (List.mem_cons_of_mem _ hp))]
    intro ch nm d hsize
    rw [jsonSlice]
    split_ifs with hcut
    · rw [jflatten, jflattenList]
    · rw [jflatten, textVisit]
      congr 1
      apply inner
      intro p hp
      have h1 : p ∈ ch.children := mem_sortedChildren (mem_truncTop hp)
      cases ch with
      | mk c cs =>
        have h2 := nodeSize_lt_of_mem c (by simpa [Node.children] using h1)
        omega

/-- C8: for every tree and every pair of limits, the JSON renderer and the
text renderer (without compaction) report exactly the same nodes with the
same counts, in the same preorder: a node at the depth limit is included by
both (with no expanded children), and both truncate to the first `top`
children after the same ordering at every level. -/
theorem claim_c8_renderers_agree (t : Node) (maxDepth top : Nat) :
    jflatten (jsonRoot maxDepth top t) = textNodes maxDepth top t := by
  rw [jsonRoot, jflatten, textNodes, textVisit]
  congr 1
  have inner : ∀ (l : List (String × Node)) (d : Nat),
      (∀ p ∈ l, nodeSize p.2 ≤ nodeSize t) →
      jflattenList (jsonSliceList maxDepth top l (d + 1)) = textVisitList maxDepth top l d := by
    intro l
    induction l with
    | nil => intro d _; rw [jsonSliceList, jflattenList, textVisitList]
    | cons q rest ihl =>
      obtain ⟨nm, ch⟩ := q
      intro d hmem
      rw [jsonSliceList, jflattenList, textVisitList,
        jsonSlice_flatten maxDepth top (nodeSize t) ch nm (d + 1)
          (hmem (nm, ch) (List.mem_cons_self _ _)),
        ihl d (fun p hp => hmem p (List.mem_cons_of_mem _ hp))]
  apply inner
  intro p hp
  have h1 : p ∈ t.children := mem_sortedChildren (mem_truncTop hp)
  cases t with
  | mk c cs =>
    have h2 := nodeSize_lt_of_mem c (by simpa [Node.children] using h1)
    omega

theorem splitChar_ne_nil (c : Char) (l : List Char) : splitChar c l ≠ [] := by
  cases l with
  | nil => simp [splitChar]
  | cons x xs =>
    rw [splitChar]
    split_ifs
    · simp
    · cases h : splitChar c xs <;> simp

theorem mem_splitChar {c : Char} : ∀ {l : List Char} {p : List Char},
    p ∈ splitChar c l → c ∉ p := by
  intro l
  induction l with
  | nil =>
    intro p hp
    simp [splitChar] at hp
    simp [hp]
  | cons x xs ih =>
    intro p hp
    rw [splitChar] at hp
    by_cases hxc : x = c
    · rw [if_pos hxc] at hp
      rcases List.mem_cons.mp hp with rfl | hp
      · simp
      · exact ih hp
    · rw [if_neg hxc] at hp
      cases hsp : splitChar c xs with
      | nil => exact absurd hsp (splitChar_ne_nil c xs)
      | cons h t =>
        rw [hsp] at hp
        rcases List.mem_cons.mp hp with rfl | hp
        · intro hmem
          rcases List.mem_cons.mp hmem with rfl | hmem
          · exact hxc rfl
          · exact ih (hsp ▸ List.mem_cons_self h t) hmem
        · exact ih (hsp ▸ List.mem_cons_of_mem h hp)

theorem splitChar_cons_sep (c : Char) (l : List Char) :
    splitChar c (c :: l) = [] :: splitChar c l := by
  rw [splitChar, if_pos rfl]

theorem splitChar_append_noSep {c : Char} : ∀ {p l : List Char} {h : List Char}
    {t : List (List Char)}, c ∉ p → splitChar c l = h :: t →
    splitChar c (p ++ l) = (p ++ h) :: t := by
  intro p
  induction p with
  | nil => intro l h t _ hsp; simpa using hsp
  | cons x xs ih =>
    intro l h t hc hsp
    simp only [List.mem_cons, not_or] at hc
    rw [List.cons_append, splitChar, if_neg (fun h => hc.1 h.symm)]
    rw [ih hc.2 hsp]
    rfl

theorem splitChar_noSep {c : Char} {p : List Char} (hc : c ∉ p) : splitChar c p = [p] := by
  have h0 : splitChar c ([] : List Char) = [] :: [] := rfl
  have := splitChar_append_noSep (l := []) (h := []) (t := []) hc h0
  simpa using this

theorem splitChar_join (c : Char) : ∀ (pieces : List (List Char)), pieces ≠ [] →
    (∀ p ∈ pieces, c ∉ p) → splitChar c (joinStrs [c] pieces) = pieces
  | [], h, _ => absurd rfl h
  | [p], _, hc => by
    rw [joinStrs]
    exact splitChar_noSep (hc p (List.mem_cons_self _ _))
  | p :: q :: rest, _, hc => by
    have hrec := splitChar_join c (q :: rest) (by simp)
      (fun r hr => hc r (List.mem_cons_of_mem _ hr))
    have hj : joinStrs [c] (p :: q :: rest) = p ++ ([c] ++ joinStrs [c] (q :: rest)) := by
      rw [joinStrs]
      all_goals simp
    rw [hj]
    have hstep : splitChar c (c :: joinStrs [c] (q :: rest)) = [] :: q :: rest := by
      rw [splitChar_cons_sep, hrec]
    have := splitChar_append_noSep (hc p (List.mem_cons_self _ _)) hstep
    simpa using this

theorem mem_normCompsFold {k : Nat} {acc : List String} {comp x : String}
    (h : x ∈ normCompsFold k acc comp) : x ∈ acc ∨ (x = comp ∧ comp ≠ "" ∧ comp ≠ ".") := by
  unfold normCompsFold at h
  split_ifs at h with h1 h2 h3
  · exact Or.inl h
  · rcases List.mem_append.mp h with h | h
    · exact Or.inl h
    · push_neg at h1
      exact Or.inr ⟨List.mem_singleton.mp h, h1.1, h1.2⟩
  · exact Or.inl ((List.dropLast_sublist _).subset h)
  · exact Or.inl h

theorem mem_foldl_normCompsFold {k : Nat} : ∀ {inputs acc : List String} {x : String},
    x ∈ inputs.foldl (normCompsFold k) acc →
    x ∈ acc ∨ (x ∈ inputs ∧ x ≠ "" ∧ x ≠ ".") := by
  intro inputs
  induction inputs with
  | nil => intro acc x h; exact Or.inl h
  | cons comp rest ih =>
    intro acc x h
    rw [List.foldl_cons] at h
    rcases ih h with h | ⟨hmem, hne, hnd⟩
    · rcases mem_normCompsFold h with h | ⟨rfl, hne, hnd⟩
      · exact Or.inl h
      · exact Or.inr ⟨List.mem_cons_self _ _, hne, hnd⟩
    · exact Or.inr ⟨List.mem_cons_of_mem _ hmem, hne, hnd⟩

theorem mem_normComps {path x : String} (h : x ∈ normComps path) :
    x ≠ "" ∧ ('/' : Char) ∉ x.toList := by
  unfold normComps at h
  rcases mem_foldl_normCompsFold h with h | ⟨hmem, hne, _⟩
  · cases h
  · refine ⟨hne, ?_⟩
    unfold pySplit at hmem
    obtain ⟨p, hp, rfl⟩ := List.mem_map.mp hmem
    exact mem_splitChar hp

theorem toList_eq_nil_iff (s : String) : s.toList = [] ↔ s = "" := by
  constructor
  · intro h
    have h2 := congrArg String.mk h
    simpa using h2
  · intro h
    rw [h]
    rfl

theorem isPrefixOf_singleton_iff (c : Char) (l : List Char) :
    ([c].isPrefixOf l) = true ↔ ∃ t, l = c :: t := by
  cases l with
  | nil => simp [List.isPrefixOf]
  | cons x t =>
    simp only [List.isPrefixOf, Bool.and_eq_true, beq_iff_eq, List.cons.injEq]
    constructor
    · intro h
      exact ⟨t, h.1.symm, rfl⟩
    · rintro ⟨t', hx, ht⟩
      exact ⟨hx.symm, by simp [List.isPrefixOf]⟩

theorem joinStrs_cons (sep : List Char) (l0 : List Char) (ls : List (List Char)) :
    ∃ z, joinStrs sep (l0 :: ls) = l0 ++ z := by
  cases ls with
  | nil => exact ⟨[], by rw [joinStrs]; simp⟩
  | cons q rest =>
    refine ⟨sep ++ joinStrs sep (q :: rest), ?_⟩
    rw [joinStrs]
    all_goals simp

theorem map_mk_toList (l : List String) : (l.map String.toList).map String.mk = l := by
  rw [List.map_map]
  have h : (String.mk ∘ String.toList) = id := funext (fun s => rfl)
  rw [h, List.map_id]

theorem getExtLeaf_leafShaped (b : String) (m : ExtMode) :
    isLeafName (getExtLeaf b m) = true := by
  have hstar : isLeafName "*" = true := by decide
  have happ : ∀ ext : String, isLeafName ("*." ++ ext) = true := by
    intro ext
    have hdata : ("*." ++ ext).toList = '*' :: '.' :: ext.toList := by
      rw [show ("*." ++ ext).toList = ("*." ++ ext).data from rfl, String.data_append]
      rfl
    simp [isLeafName, pyStartsWith, hdata, List.isPrefixOf]
  have hbucket : ∀ ext : String, isLeafName (if ext = "" then "*" else "*." ++ ext) = true := by
    intro ext
    split_ifs
    · exact hstar
    · exact happ ext
  unfold getExtLeaf
  split_ifs <;> first | exact hstar | exact hbucket _

theorem initialSlashes_cases (path : String) :
    initialSlashes path = 0 ∨ initialSlashes path = 1 ∨ initialSlashes path = 2 := by
  unfold initialSlashes
  split_ifs <;> simp

theorem pathToParts_eq_of_comps_ne_nil (path : String) (mode : ExtMode) (hpath : path ≠ "")
    (hcomps : normComps path ≠ []) :
    pathToParts path mode
      = ("/" :: normComps path).dropLast
          ++ [getExtLeaf (("/" :: normComps path).getLastD "") mode] := by
  obtain ⟨c0, crest, hcs⟩ : ∃ c0 crest, normComps path = c0 :: crest := by
    cases h : normComps path with
    | nil => exact absurd h hcomps
    | cons a b => exact ⟨a, b, rfl⟩
  have hinv : ∀ x ∈ normComps path, x ≠ "" ∧ ('/' : Char) ∉ x.toList :=
    fun x hx => mem_normComps hx
  set J := joinStrs ['/'] ((normComps path).map String.toList) with hJdef
  have hc0 := hinv c0 (hcs ▸ List.mem_cons_self c0 crest)
  have hc0ne : c0.toList ≠ [] := fun h => hc0.1 ((toList_eq_nil_iff c0).mp h)
  obtain ⟨ch0, c0t, hc0l⟩ : ∃ ch0 c0t, c0.toList = ch0 :: c0t := by
    cases h : c0.toList with
    | nil => exact absurd h hc0ne
    | cons a b => exact ⟨a, b, rfl⟩
  have hch0 : ch0 ≠ '/' := by
    intro h
    apply hc0.2
    rw [hc0l, h]
    exact List.mem_cons_self _ _
  obtain ⟨z, hJz⟩ : ∃ z, J = ch0 :: z := by
    rw [hJdef, hcs]
    simp only [List.map_cons]
    obtain ⟨z0, hz0⟩ := joinStrs_cons ['/'] c0.toList (crest.map String.toList)
    rw [hz0, hc0l]
    exact ⟨c0t ++ z0, by simp⟩
  have hsplitJ : splitChar '/' J = (normComps path).map String.toList := by
    rw [hJdef]
    apply splitChar_join
    · simp [hcs]
    · intro p hp
      obtain ⟨x, hx, rfl⟩ := List.mem_map.mp hp
      exact (hinv x hx).2
  have hfilter : ∀ l : List String, (∀ x ∈ l, x ≠ "") → l.filter (fun p => p ≠ "") = l := by
    intro l hl
    apply List.filter_eq_self.mpr
    intro a ha
    simpa using hl a ha
  have hroundtrip : (pySplit (String.mk J) '/').filter (fun p => p ≠ "") = normComps path := by
    unfold pySplit
    rw [show (String.mk J).toList = J from rfl, hsplitJ, map_mk_toList]
    exact hfilter _ (fun x hx => (hinv x hx).1)
  have hc0slash : c0 ≠ "/" := by
    intro h
    apply hc0.2
    rw [h]
    exact List.mem_cons_self _ _
  have hheadne : (normComps path).head? ≠ some "/" := by
    rw [hcs]
    simp only [List.head?_cons, ne_eq, Option.some.injEq]
    exact hc0slash
  rcases initialSlashes_cases path with hk | hk | hk
  · -- relative path: the normalized string is J itself
    have hnorm : normpath path = String.mk J := by
      rw [normpath, if_neg hpath]
      simp only [hk, hJdef]
      have hJne : String.mk ([] ++ J) ≠ "" := by
        rw [List.nil_append, hJz]
        intro hcontra
        simpa using congrArg String.toList hcontra
      simp only [show (0 : Nat) = 2 ↔ False by simp, if_false, show (0 : Nat) = 1 ↔ False by simp]
      rw [if_neg (by simpa using hJne)]
      simp
    have hne_slash : ¬ (String.mk J = "/") := by
      rw [hJz]
      intro h
      have h2 : ch0 :: z = ['/'] := by simpa using congrArg String.toList h
      exact hch0 (by simpa using congrArg List.head? h2)
    have hsw : pyStartsWith (String.mk J) "/" = false := by
      unfold pyStartsWith
      rw [show (String.mk J).toList = J from rfl, hJz]
      have hne : (('/' : Char) == ch0) = false := beq_eq_false_iff_ne.mpr (Ne.symm hch0)
      simp [List.isPrefixOf, hne]
    rw [pathToParts]
    simp only [hnorm]
    rw [if_neg hne_slash]
    simp only [hsw, Bool.false_eq_true, if_false, hroundtrip]
    have hparts : (if normComps path ≠ [] ∧ (normComps path).head? ≠ some "/"
        then "/" :: normComps path else normComps path) = "/" :: normComps path :=
      if_pos ⟨hcomps, hheadne⟩
    rw [hparts]
    rw [if_pos (by simp)]
  · -- absolute path with one leading slash
    have hnorm : normpath path = String.mk ('/' :: J) := by
      rw [normpath, if_neg hpath]
      simp only [hk, hJdef]
      simp only [show (1 : Nat) = 2 ↔ False by simp, if_false, show (1 : Nat) = 1 ↔ True by simp,
        if_true]
      rw [if_neg (by intro hcontra; simpa using congrArg String.toList hcontra)]
      rfl
    have hne_slash : ¬ (String.mk ('/' :: J) = "/") := by
      intro h
      have h2 : '/' :: J = ['/'] := by simpa using congrArg String.toList h
      rw [hJz] at h2
      simpa using congrArg List.length h2
    have hsw : pyStartsWith (String.mk ('/' :: J)) "/" = true := by
      unfold pyStartsWith
      simp [List.isPrefixOf]
    have hslice : pySlice1 (String.mk ('/' :: J)) = String.mk J := rfl
    rw [pathToParts]
    simp only [hnorm]
    rw [if_neg hne_slash]
    simp only [hsw, if_true, hslice, hroundtrip]
    rw [if_pos (by rw [hcs]; simp)]
  · -- absolute path with exactly two leading slashes
    have hnorm : normpath path = String.mk ('/' :: '/' :: J) := by
      rw [normpath, if_neg hpath]
      simp only [hk, hJdef]
      simp only [show (2 : Nat) = 2 ↔ True by simp, if_true]
      rw [if_neg (by intro hcontra; simpa using congrArg String.toList hcontra)]
      rfl
    have hne_slash : ¬ (String.mk ('/' :: '/' :: J) = "/") := by
      intro h
      have h2 : '/' :: '/' :: J = ['/'] := by simpa using congrArg String.toList h
      simpa using congrArg List.length h2
    have hsw : pyStartsWith (String.mk ('/' :: '/' :: J)) "/" = true := by
      unfold pyStartsWith
      simp [List.isPrefixOf]
    have hslice : pySlice1 (String.mk ('/' :: '/' :: J)) = String.mk ('/' :: J) := rfl
    have hsplit2 : (pySplit (String.mk ('/' :: J)) '/').filter (fun p => p ≠ "")
        = normComps path := by
      unfold pySplit
      rw [show (String.mk ('/' :: J)).toList = '/' :: J from rfl, splitChar_cons_sep, hsplitJ]
      simp only [List.map_cons, List.filter_cons]
      rw [show (String.mk ([] : List Char)) = "" from rfl]
      simp only [show (decide (("" : String) ≠ "")) = false by decide, if_false]
      rw [map_mk_toList]
      exact hfilter _ (fun x hx => (hinv x hx).1)
    rw [pathToParts]
    simp only [hnorm]
    rw [if_neg hne_slash]
    simp only [hsw, if_true, hslice, hsplit2]
    rw [if_pos (by rw [hcs]; simp)]

theorem pathToParts_root_cases (path : String) (mode : ExtMode) (hpath : path ≠ "")
    (hcomps : normComps path = []) :
    (normpath path = "//" ∧ pathToParts path mode = ["*"]) ∨
    pathToParts path mode = ["/", "*"] := by
  have hJ : joinStrs ['/'] ((normComps path).map String.toList) = [] := by
    rw [hcomps]
    rfl
  rcases initialSlashes_cases path with hk | hk | hk
  · right
    have hnorm : normpath path = "." := by
      rw [normpath, if_neg hpath]
      simp only [hk, hJ]
      simp
    rw [pathToParts]
    simp only [hnorm]
    cases mode <;> decide
  · right
    have hnorm : normpath path = "/" := by
      rw [normpath, if_neg hpath]
      simp only [hk, hJ]
      simp only [show (1 : Nat) = 2 ↔ False by simp, if_false, show (1 : Nat) = 1 ↔ True by simp,
        if_true, List.append_nil]
      rfl
    rw [pathToParts]
    simp only [hnorm]
    cases mode <;> decide
  · left
    have hnorm : normpath path = "//" := by
      rw [normpath, if_neg hpath]
      simp only [hk, hJ]
      simp only [show (2 : Nat) = 2 ↔ True by simp, if_true, List.append_nil]
      rfl
    refine ⟨hnorm, ?_⟩
    rw [pathToParts]
    simp only [hnorm]
    cases mode <;> decide

/-- Shape of the segment sequence for any path not normalizing to the
double-slash root: non-empty, starting with the root marker, ending in a
leaf-shaped bucket. -/
theorem pathToParts_shape (path : String) (mode : ExtMode) (hne : normpath path ≠ "//") :
    pathToParts path mode ≠ [] ∧
    (pathToParts path mode).head? = some "/" ∧
    isLeafName ((pathToParts path mode).getLastD "") = true := by
  by_cases hpath : path = ""
  · subst hpath
    cases mode <;> exact ⟨by decide, by decide, by decide⟩
  · by_cases hcomps : normComps path = []
    · rcases pathToParts_root_cases path mode hpath hcomps with ⟨hbad, _⟩ | hgood
      · exact absurd hbad hne
      · rw [hgood]
        exact ⟨by decide, by decide, by decide⟩
    · rw [pathToParts_eq_of_comps_ne_nil path mode hpath hcomps]
      obtain ⟨c0, crest, hcs⟩ : ∃ c0 crest, normComps path = c0 :: crest := by
        cases h : normComps path with
        | nil => exact absurd h hcomps
        | cons a b => exact ⟨a, b, rfl⟩
      rw [hcs]
      refine ⟨by simp, ?_, ?_⟩
      · rw [List.dropLast_cons₂]
        simp
      · rw [List.getLastD_concat]
        exact getExtLeaf_leafShaped _ mode

theorem buildTree_root_children (cfg : Config) (paths : List String)
    (hp : ∀ p ∈ paths, normpath p ≠ "//") :
    (buildTree cfg paths).children = [] ∨
    ∃ v, (buildTree cfg paths).children = [("/", v)] := by
  unfold buildTree
  have step : ∀ (ps : List String), (∀ p ∈ ps, normpath p ≠ "//") → ∀ acc : Node,
      (acc.children = [] ∨ ∃ v, acc.children = [("/", v)]) →
      ((ps.foldl (fun acc path => if wantPath cfg path
          then ensurePath acc (pathToParts path cfg.extMode) else acc) acc).children = [] ∨
       ∃ v, (ps.foldl (fun acc path => if wantPath cfg path
          then ensurePath acc (pathToParts path cfg.extMode) else acc) acc).children
         = [("/", v)]) := by
    intro ps
    induction ps with
    | nil => intro _ acc hacc; exact hacc
    | cons p rest ih =>
      intro hps acc hacc
      rw [List.foldl_cons]
      apply ih (fun q hq => hps q (List.mem_cons_of_mem p hq))
      by_cases hw : wantPath cfg p
      · rw [if_pos hw]
        have hsh := pathToParts_shape p cfg.extMode (hps p (List.mem_cons_self p rest))
        cases hparts : pathToParts p cfg.extMode with
        | nil => exact absurd hparts hsh.1
        | cons a tl =>
          have ha : a = "/" := by
            have := hsh.2.1
            rw [hparts] at this
            simpa using this
          subst ha
          cases acc with
          | mk c cs =>
            rw [ensurePath]
            rcases hacc with hacc | ⟨v, hacc⟩
            · simp only [Node.children] at hacc ⊢
              rw [hacc]
              rw [updateChild]
              exact Or.inr ⟨_, rfl⟩
            · simp only [Node.children] at hacc ⊢
              rw [hacc]
              rw [updateChild, if_pos rfl]
              exact Or.inr ⟨_, rfl⟩
      · rw [if_neg hw]
        exact hacc
  exact step paths hp (Node.mk 0 []) (Or.inl rfl)

/-- C10 as stated is false at the input `//` (see the counterexample):
amended, the property holds for every path whose POSIX normalization is
not exactly `//`.  For such paths `path_to_parts` returns a non-empty
sequence starting with the root marker `/` and ending in a leaf-shaped
bucket (`*` or `*.<ext>` with non-empty extension), and consequently, when
no input path normalizes to `//`, the trie root has at most one child and
any child it has is keyed `/`. -/
theorem claim_c10_amended :
    (∀ (path : String) (mode : ExtMode), normpath path ≠ "//" →
      pathToParts path mode ≠ [] ∧
      (pathToParts path mode).head? = some "/" ∧
      isLeafName ((pathToParts path mode).getLastD "") = true) ∧
    (∀ (cfg : Config) (paths : List String), (∀ p ∈ paths, normpath p ≠ "//") →
      (buildTree cfg paths).children.length ≤ 1 ∧
      (∀ q ∈ (buildTree cfg paths).children, q.1 = "/")) := by
  constructor
  · exact pathToParts_shape
  · intro cfg paths hp
    rcases buildTree_root_children cfg paths hp with h | ⟨v, h⟩
    · rw [h]
      exact ⟨by simp, by simp⟩
    · rw [h]
      constructor
      · simp
      · intro q hq
        rcases List.mem_singleton.mp hq with rfl
        rfl

/-- Counterexample for C10 as stated: the path `//` (whose POSIX
normalization is `//` itself) yields the segment sequence `["*"]`, whose
first element is not the root marker; feeding it together with `/a` gives
the trie root two children. -/
theorem claim_c10_counterexample :
    pathToParts "//" ExtMode.last = ["*"] ∧
    (pathToParts "//" ExtMode.last).head? ≠ some "/" ∧
    (buildTree defaultConfig ["//", "/a"]).children.length = 2 := by
  refine ⟨by decide, by decide, by decide⟩

/-- Witness for the amended C10: a concrete ordinary path has the claimed
shape, and building from it gives the root a single `/` child. -/
theorem claim_c10_witness :
    ((pathToParts "/etc/ssl/cert.pem" ExtMode.last).head? = some "/" ∧
     isLeafName ((pathToParts "/etc/ssl/cert.pem" ExtMode.last).getLastD "") = true) ∧
    (buildTree defaultConfig ["/a/b.c"]).children.length ≤ 1 := by
  have h1 := claim_c10_amended.1 "/etc/ssl/cert.pem" ExtMode.last (by decide)
  have h2 := claim_c10_amended.2 defaultConfig ["/a/b.c"] (by decide)
  exact ⟨⟨h1.2.1, h1.2.2⟩, h2.1⟩
